import Mathlib

/-!
# Verification of the matugen-theme-bridge core

A shallow embedding of the repository's core modules:

* `src/engine/colorApplier.ts` — `applyColors`, `clearColors`, `getManagedStatus`
  over the shared `workbench.colorCustomizations` object;
* `src/engine/paletteReader.ts` — `resolvePalettePath`, `readPalette`
  (the validation/extraction stage over the parsed JSON object);
* `src/utils/debounce.ts` — the debounce combinator, as an event-trace
  semantics over JS timers;
* `src/watcher/paletteWatcher.ts` — the watcher restart behaviour with
  respect to pending debounced timers.

JavaScript runtime values are modelled by `JVal`; JS objects are modelled as
insertion-ordered association lists with unique keys (the canonical
representation of a JS object), with property read, property assignment and
`delete` translated to `jsLookup`, `jsSet` and `eraseKey`.  Machine behaviour
that the code relies on (optional chaining, `??`, truthiness, `for..of`
iterability, property-key string coercion) is embedded explicitly below, each
definition annotated with the construct it translates.
-/

namespace MatugenBridge

/-- A JavaScript runtime value, as stored in the shared configuration object
or in a parsed palette file.  `vfun` stands for a function value (it arises
only as the inherited `Array.prototype.keys` method when the code reads a
`keys` property off an array). -/
inductive JVal where
  | vstr (s : String)
  | vnum (n : Int)
  | vbool (b : Bool)
  | vnull
  | varr (elems : List JVal)
  | vobj (fields : List (String × JVal))
  | vfun

/-- A JS object: insertion-ordered fields with (canonically) unique keys.
This is the model of the `workbench.colorCustomizations` value. -/
abbrev Cfg : Type := List (String × JVal)

/-- Property read `o[k]` on an object: the value of the (unique) field named
`k`, or `none` for JS `undefined`. -/
def jsLookup (k : String) : Cfg → Option JVal
  | [] => none
  | (k1, v) :: rest => if k1 = k then some v else jsLookup k rest

/-- Property assignment `o[k] = v` on an object: overwrite in place if the
key exists, otherwise append (JS insertion-order semantics). -/
def jsSet (k : String) (v : JVal) : Cfg → Cfg
  | [] => [(k, v)]
  | (k1, v1) :: rest => if k1 = k then (k, v) :: rest else (k1, v1) :: jsSet k v rest

/-- Property deletion `delete o[k]` on an object: remove the field named `k`. -/
def eraseKey (k : String) : Cfg → Cfg
  | [] => []
  | (k1, v) :: rest => if k1 = k then eraseKey k rest else (k1, v) :: eraseKey k rest

/-- Property read `v.name` on an arbitrary JS value (`undefined` = `none`).
Only the properties this code base actually reads (`keys`, `appliedAt`,
`length`) are modelled; on an array, `keys` resolves to the inherited
`Array.prototype.keys` method (a function), and `length` to the length. -/
def jsGetProp : JVal → String → Option JVal
  | .vobj fields, name => jsLookup name fields
  | .varr l, name =>
      if name = "length" then some (.vnum (Int.ofNat l.length))
      else if name = "keys" then some .vfun
      else none
  | .vstr s, name => if name = "length" then some (.vnum (Int.ofNat s.length)) else none
  | .vfun, name => if name = "length" then some (.vnum 0) else none
  | _, _ => none

/-- JS truthiness: `undefined`, `null`, `false`, `0`, `""` are falsy. -/
def isFalsy : JVal → Bool
  | .vnull => true
  | .vbool b => !b
  | .vnum n => n == 0
  | .vstr s => s == ""
  | _ => false

/-- Iteration `for (const x of v)`: arrays iterate their elements, strings iterate
their characters (as 1-character strings); every other value is not
iterable and the loop throws a `TypeError` (`none`). -/
def jsIterate : JVal → Option (List JVal)
  | .varr l => some l
  | .vstr s => some (s.data.map (fun c => .vstr (String.singleton c)))
  | _ => none

/-- JS property-key coercion `String(v)` as used by `delete o[v]`.  It is
exact on the primitive values; for arrays, objects and functions (which no
well-formed metadata ever contains, and which no theorem below depends on)
a fixed abbreviation of the JS `ToString` result is used. -/
def jsToKey : JVal → String
  | .vstr s => s
  | .vnum n => toString n
  | .vbool b => if b then "true" else "false"
  | .vnull => "null"
  | .varr _ => "<array>"
  | .vobj _ => "[object Object]"
  | .vfun => "<function>"

/-! ## Color Merge Engine — `src/engine/colorApplier.ts` -/

/-- The constant `MANAGED_KEY` from `src/types.ts`: the reserved metadata key stored
inside `workbench.colorCustomizations`. -/
def MANAGED_KEY : String := "__matugenBridge"

/-- A `ColorMap` (`src/types.ts`): token → hex string, in insertion order. -/
abbrev ColorMap : Type := List (String × String)

/-- The `ManagedMeta` record as a JS object, in the literal's field order:
`{ keys: [...], appliedAt: now }`. -/
def metaVal (keys : List String) (appliedAt : String) : JVal :=
  .vobj [("keys", .varr (keys.map .vstr)), ("appliedAt", .vstr appliedAt)]

/-- The read `meta?.keys ?? []` in `applyColors`: the metadata entry is looked up in
the current object; optional chaining short-circuits on `null`/`undefined`,
and `??` replaces a nullish `keys` by `[]`. -/
def previouslyManagedVal (current : Cfg) : JVal :=
  match jsLookup MANAGED_KEY current with
  | none => .varr []
  | some .vnull => .varr []
  | some m =>
      match jsGetProp m "keys" with
      | none => .varr []
      | some .vnull => .varr []
      | some v => v

/-- The operation `applyColors(newColors)` (`colorApplier.ts`): copy the current object,
delete every previously managed key and the metadata key, merge the new
colors on top, write a fresh metadata record, and persist.  `now` stands for
`new Date().toISOString()`.  A thrown `TypeError` (non-iterable
`previouslyManaged`) is `Except.error ()`; the configuration write happens
only on `Except.ok`. -/
def applyColorsFn (current : Cfg) (newColors : ColorMap) (now : String) :
    Except Unit Cfg :=
  match jsIterate (previouslyManagedVal current) with
  | none => .error ()
  | some prevKeys =>
      let next := prevKeys.foldl (fun acc kv => eraseKey (jsToKey kv) acc) current
      let next := eraseKey MANAGED_KEY next
      let next := newColors.foldl (fun acc p => jsSet p.1 (.vstr p.2) acc) next
      .ok (jsSet MANAGED_KEY (metaVal (newColors.map Prod.fst) now) next)

/-- The tail of `clearColors()` once `meta.keys` has been read into `keysv`:
`meta.keys.length === 0` is a no-op; otherwise `for..of` over `meta.keys`
deletes each owned key (throwing on a non-iterable value), then the metadata
key is deleted. -/
def clearTail (current : Cfg) (keysv : JVal) : Except Unit Cfg :=
  let lenIsZero :=
    match jsGetProp keysv "length" with
    | some (.vnum n) => n == 0
    | _ => false
  if lenIsZero then .ok current
  else
    match jsIterate keysv with
    | none => .error ()
    | some elems =>
        let next := elems.foldl (fun acc kv => eraseKey (jsToKey kv) acc) current
        .ok (eraseKey MANAGED_KEY next)

/-- The operation `clearColors()` (`colorApplier.ts`): read the metadata; if
`!meta || meta.keys.length === 0` it is a no-op; otherwise delete exactly
the owned keys and the metadata key.  `meta.keys` on a truthy `meta` without
a usable (non-nullish) `keys` property throws (`undefined.length`). -/
def clearColorsFn (current : Cfg) : Except Unit Cfg :=
  match jsLookup MANAGED_KEY current with
  | none => .ok current
  | some m =>
      if isFalsy m then .ok current
      else
        match jsGetProp m "keys" with
        | none => .error ()
        | some .vnull => .error ()
        | some keysv => clearTail current keysv

/-- Result shape of `getManagedStatus()`. -/
structure ManagedStatus where
  count : JVal
  appliedAt : JVal

/-- The operation `getManagedStatus()` (`colorApplier.ts`):
`{ count: meta?.keys.length ?? 0, appliedAt: meta?.appliedAt ?? null }`.
Optional chaining short-circuits the whole chain on nullish `meta`; on a
non-nullish `meta` the access `meta.keys.length` throws a `TypeError` when
`meta.keys` is `undefined` or `null`. -/
def getManagedStatusFn (current : Cfg) : Except Unit ManagedStatus :=
  match jsLookup MANAGED_KEY current with
  | none => .ok ⟨.vnum 0, .vnull⟩
  | some .vnull => .ok ⟨.vnum 0, .vnull⟩
  | some m =>
      match jsGetProp m "keys" with
      | none => .error ()
      | some .vnull => .error ()
      | some keysv =>
          let count :=
            match jsGetProp keysv "length" with
            | none => JVal.vnum 0
            | some .vnull => JVal.vnum 0
            | some v => v
          let appliedAt :=
            match jsGetProp m "appliedAt" with
            | none => JVal.vnull
            | some .vnull => JVal.vnull
            | some v => v
          .ok ⟨count, appliedAt⟩

/-- One engine operation, for reasoning about call sequences. -/
inductive BridgeOp where
  | apply (colors : ColorMap) (now : String)
  | clear

/-- Run one operation; a thrown `TypeError` is caught by the callers in
`extension.ts` before any configuration write, so a faulting call leaves the
shared object unchanged. -/
def runOp (st : Cfg) : BridgeOp → Cfg
  | .apply c now =>
      match applyColorsFn st c now with
      | .ok st1 => st1
      | .error _ => st
  | .clear =>
      match clearColorsFn st with
      | .ok st1 => st1
      | .error _ => st

/-- Run a sequence of `applyColors`/`clearColors` calls. -/
def runOps (st : Cfg) (ops : List BridgeOp) : Cfg :=
  ops.foldl runOp st

/-- The list of keys an operation's `newColors` map defines. -/
def opColors : BridgeOp → List String
  | .apply c _ => c.map Prod.fst
  | .clear => []

/-- Extract a list of strings from a JS array of strings; `none` when the
value is not an array of strings. -/
def strListAux : List JVal → Option (List String)
  | [] => some []
  | .vstr s :: rest => (strListAux rest).map (fun l => s :: l)
  | _ => none

/-- Reading `strListOf v`: `v` as a JS array of strings. -/
def strListOf : JVal → Option (List String)
  | .varr l => strListAux l
  | _ => none

/-- The previously-owned key list (`ManagedMeta.keys`) of a state, when the
metadata is well-formed: absent/nullish metadata yields `some []`, a
metadata record whose `keys` is an array of strings yields that list, and
anything else (a malformed `keys`) yields `none`. -/
def ownedKeys (st : Cfg) : Option (List String) :=
  strListOf (previouslyManagedVal st)

/-- The value `applyColors` computes on its successful path, given the
previously-owned key list `prev` it recovered: delete the owned keys, delete
the metadata key, merge the new colors, write the fresh metadata record. -/
def applyPure (st : Cfg) (prev : List String) (X : ColorMap) (now : String) : Cfg :=
  jsSet MANAGED_KEY (metaVal (X.map Prod.fst) now)
    (X.foldl (fun acc p => jsSet p.1 (.vstr p.2) acc)
      (eraseKey MANAGED_KEY (prev.foldl (fun acc k1 => eraseKey k1 acc) st)))

/-- The states in which `applyColors` defaults the owned-key list to `[]`:
the metadata entry is absent, or `null`, or has no usable (non-nullish)
`keys` property. -/
def MetaDefaultsEmpty (st : Cfg) : Prop :=
  ∀ m, jsLookup MANAGED_KEY st = some m →
    m = .vnull ∨ jsGetProp m "keys" = none ∨ jsGetProp m "keys" = some .vnull

/-- The value the last binding of `k` in a color map carries (`none` when
`k` is not bound): what a sequence of JS assignments leaves at `k`. -/
def lastVal (k : String) (X : ColorMap) : Option String :=
  X.foldl (fun acc p => if p.1 = k then some p.2 else acc) none

/-! ## Palette Reader — `src/engine/paletteReader.ts` -/

/-- One character class of `[0-9a-fA-F]`. -/
def isHexDigitJS (c : Char) : Bool :=
  c.isDigit || ('a' ≤ c && c ≤ 'f') || ('A' ≤ c && c ≤ 'F')

/-- The test `HEX_RE.test v` for
`/^#([0-9a-fA-F]{3}|[0-9a-fA-F]{4}|[0-9a-fA-F]{6}|[0-9a-fA-F]{8})$/`:
a `#` followed by exactly 3, 4, 6 or 8 hex digits. -/
def isHex (v : String) : Bool :=
  match v.data with
  | '#' :: rest =>
      (rest.length == 3 || rest.length == 4 || rest.length == 6 || rest.length == 8)
        && rest.all isHexDigitJS
  | _ => false

/-- The JS `s.startsWith(p)` (modelled on the character lists). -/
def jsStartsWith (s p : String) : Bool :=
  p.data.isPrefixOf s.data

/-- The check `isColorToken(key)`: `!key.startsWith("_") && key.includes(".")`
(a single-character `includes` is character membership). -/
def isColorToken (key : String) : Bool :=
  !(jsStartsWith key "_") && key.data.contains '.'

/-- Assignment `colors[key] = value` on the string-valued accumulator
object (same in-place-or-append semantics as `jsSet`). -/
def sSet (k v : String) : List (String × String) → List (String × String)
  | [] => [(k, v)]
  | (k1, v1) :: rest => if k1 = k then (k, v) :: rest else (k1, v1) :: sSet k v rest

/-- One iteration of the `for (const [key, value] of Object.entries(parsed))`
loop in `readPalette`: non-token keys are skipped silently, non-string and
non-hex values are skipped with `skipped++`, valid entries are assigned into
`colors`. -/
def paletteStep (acc : List (String × String) × Nat) (e : String × JVal) :
    List (String × String) × Nat :=
  if !isColorToken e.1 then acc
  else
    match e.2 with
    | .vstr s => if isHex s then (sSet e.1 s acc.1, acc.2) else (acc.1, acc.2 + 1)
    | _ => (acc.1, acc.2 + 1)

/-- The extraction loop of `readPalette` over the own entries of the parsed
object (in enumeration order), returning `(colors, skipped)`. -/
def paletteScan (es : List (String × JVal)) : List (String × String) × Nat :=
  es.foldl paletteStep ([], 0)

/-- The reader's result type (`PaletteReadResult` from `src/types.ts`),
from the validation stage on. -/
inductive PaletteReadResult where
  | ok (colors : List (String × String))
  | err (error : String)
deriving DecidableEq

/-- The operation `readPalette`, from the point where the file content has parsed as a
non-null, non-array JSON object with own entries `es` (existence, read and
parse failures happen before this stage and are external I/O): run the
extraction loop, and fail with the `EmptyPalette` message when no valid
token was found. -/
def readPaletteObj (es : List (String × JVal)) : PaletteReadResult :=
  let scanned := paletteScan es
  if scanned.1.length == 0 then
    .err "Palette file contained no valid VS Code color tokens."
  else .ok scanned.1

/-- The predicate for an entry that `readPalette` keeps: token-shaped key
and hex-string value (used to state what the scan computes). -/
def goodOpt (e : String × JVal) : Option (String × String) :=
  if isColorToken e.1 then
    match e.2 with
    | .vstr s => if isHex s then some (e.1, s) else none
    | _ => none
  else none

/-- Whether an entry's value is a hex string (used to state the skipped
count). -/
def isHexStrVal : JVal → Bool
  | .vstr s => isHex s
  | _ => false

/-! ## Path resolution — `resolvePalettePath` (`paletteReader.ts`) -/

/-- Split a character list at `'/'` into segments. -/
def splitSlashAux : List Char → List Char → List String
  | [], cur => [String.mk cur.reverse]
  | c :: rest, cur =>
      if c = '/' then String.mk cur.reverse :: splitSlashAux rest []
      else splitSlashAux rest (c :: cur)

/-- The `'/'`-separated segments of a path. -/
def splitSlash (s : String) : List String :=
  splitSlashAux s.data []

/-- One step of POSIX path normalization: drop empty and `.` segments,
resolve `..` against the already-normalized prefix. -/
def normStep (isAbs : Bool) (acc : List String) (seg : String) : List String :=
  if seg = "" || seg = "." then acc
  else if seg = ".." then
    match acc.getLast? with
    | some s => if s = ".." then acc ++ [".."] else acc.dropLast
    | none => if isAbs then [] else [".."]
  else acc ++ [seg]

/-- Join segments back with `'/'`. -/
def joinSegs : List String → String
  | [] => ""
  | [s] => s
  | s :: rest => s ++ "/" ++ joinSegs rest

/-- Node's `path.normalize` (POSIX), restricted to what `path.join`
produces here. -/
def posixNormalize (p : String) : String :=
  let isAbs := jsStartsWith p "/"
  let segs := (splitSlash p).foldl (normStep isAbs) []
  let body := joinSegs segs
  if isAbs then "/" ++ body
  else if body = "" then "." else body

/-- Node's `path.join` (POSIX): drop empty parts, join with `'/'`,
normalize; an empty join is `"."`. -/
def posixJoin (parts : List String) : String :=
  let joined := joinSegs (parts.filter (fun p => p ≠ ""))
  if joined = "" then "." else posixNormalize joined

/-- The JS `s.trim()`: strip leading and trailing whitespace. -/
def jsTrim (s : String) : String :=
  String.mk (((s.data.dropWhile Char.isWhitespace).reverse.dropWhile Char.isWhitespace).reverse)

/-- The default palette path:
`path.join(XDG_CONFIG_HOME ?? path.join(homedir, ".config"), "VSCodium", "User", "Theme", "vscode-palette.json")`. -/
def defaultPalettePath (homedir : String) (xdgConfigHome : Option String) : String :=
  let configDir := xdgConfigHome.getD (posixJoin [homedir, ".config"])
  posixJoin [configDir, "VSCodium", "User", "Theme", "vscode-palette.json"]

/-- The operation `resolvePalettePath(customPath)` (`paletteReader.ts`), with the ambient
`os.homedir()` and `process.env["XDG_CONFIG_HOME"]` passed explicitly:
if `customPath && customPath.trim() !== ""`, expand a leading `~` via
`path.join(os.homedir(), customPath.slice(1))` and return the custom path
verbatim otherwise; else return the platform default. -/
def resolvePalettePath (customPath : Option String) (homedir : String)
    (xdgConfigHome : Option String) : String :=
  match customPath with
  | none => defaultPalettePath homedir xdgConfigHome
  | some cp =>
      if cp ≠ "" && jsTrim cp ≠ "" then
        if jsStartsWith cp "~" then posixJoin [homedir, cp.drop 1]
        else cp
      else defaultPalettePath homedir xdgConfigHome

/-! ## Debouncer — `src/utils/debounce.ts`

The debounced callable is modelled by its effect on a chronological trace of
calls.  The closure state is the pending timer `some (fireTime, args)` (the
`timer` variable plus the captured `args`).  Processing a call at time `t`:
a pending timer due at or before `t` has already fired (executing `fn` with
its captured arguments); an undue pending timer is `clearTimeout`-ed; the
call then schedules a fresh timer at `t + delayMs` with its own arguments.
After the last call, silence: the remaining pending timer fires at its
scheduled time.  The result is the list of `(executionTime, args)` of the
actual `fn` executions. -/

/-- Trace semantics of a `debounce(fn, delay)` callable. -/
def debRun (delay : Nat) : List (Nat × α) → Option (Nat × α) → List (Nat × α)
  | [], pending =>
      match pending with
      | none => []
      | some p => [p]
  | (t, a) :: rest, pending =>
      match pending with
      | some (ft, pa) =>
          if ft ≤ t then (ft, pa) :: debRun delay rest (some (t + delay, a))
          else debRun delay rest (some (t + delay, a))
      | none => debRun delay rest (some (t + delay, a))

/-! ## Watcher restart vs pending timers — `src/watcher/paletteWatcher.ts`

`PaletteWatcher.start(path)` calls `stop()` (disposing the filesystem
subscriptions) and rebuilds `this.debouncedCallback = this.buildDebounced()`.
The old debounce closure is discarded, but a `setTimeout` it had already
scheduled stays registered with the runtime — nothing calls `clearTimeout`
on it.  The model tags every scheduled timer with the generation of the
debounce closure that owns it: a file event clears and reschedules only the
current generation's timer (that closure's `timer` variable); a restart
bumps the generation and leaves the old generation's timers in place. -/

/-- A watcher-level event: a create/change notification for the watched
path, or a `start()` restart carrying the `debounceMs` configured at that
moment.  Both carry their occurrence time. -/
inductive WEv where
  | fileEvent (t : Nat)
  | restart (t : Nat) (delay : Nat)

/-- The time of a watcher event. -/
def wevTime : WEv → Nat
  | .fileEvent t => t
  | .restart t _ => t

/-- Watcher state: current debouncer generation, its configured delay, and
the scheduled timers `(generation, fireTime)` not yet fired or cleared. -/
structure WSt where
  gen : Nat
  delay : Nat
  timers : List (Nat × Nat)

/-- Run the watcher over a chronological event list, returning the times at
which the debounced `onChange` action actually executes.  Timers due at or
before the next event fire first; at the end of the trace every remaining
timer fires at its scheduled time. -/
def watcherRun (st : WSt) : List WEv → List Nat
  | [] => st.timers.map Prod.snd
  | ev :: rest =>
      let t := wevTime ev
      let due := st.timers.filter (fun p => decide (p.2 ≤ t))
      let remaining := st.timers.filter (fun p => !decide (p.2 ≤ t))
      match ev with
      | .fileEvent _ =>
          due.map Prod.snd ++
            watcherRun ⟨st.gen, st.delay,
              remaining.filter (fun p => p.1 ≠ st.gen) ++ [(st.gen, t + st.delay)]⟩ rest
      | .restart _ d =>
          due.map Prod.snd ++ watcherRun ⟨st.gen + 1, d, remaining⟩ rest

/-! ## Lemmas about the JS object operations -/

theorem jsLookup_jsSet (k k1 : String) (v : JVal) (st : Cfg) :
    jsLookup k (jsSet k1 v st) = if k1 = k then some v else jsLookup k st := by
  induction st with
  | nil => simp [jsSet, jsLookup]
  | cons p rest ih =>
      obtain ⟨k2, v2⟩ := p
      by_cases h : k2 = k1
      · subst h
        simp only [jsSet, if_pos rfl, jsLookup]
        by_cases h2 : k2 = k <;> simp [h2]
      · simp only [jsSet, if_neg h, jsLookup]
        by_cases h2 : k2 = k
        · have h3 : ¬ k1 = k := fun he => h (h2.trans he.symm)
          simp [h2, h3]
        · simp [h2, ih]

theorem jsLookup_eraseKey (k k1 : String) (st : Cfg) :
    jsLookup k (eraseKey k1 st) = if k1 = k then none else jsLookup k st := by
  induction st with
  | nil => simp [eraseKey, jsLookup]
  | cons p rest ih =>
      obtain ⟨k2, v2⟩ := p
      by_cases h : k2 = k1
      · subst h
        have he : eraseKey k2 ((k2, v2) :: rest) = eraseKey k2 rest := by simp [eraseKey]
        rw [he, ih]
        by_cases h2 : k2 = k <;> simp [jsLookup, h2]
      · simp only [eraseKey, if_neg h, jsLookup]
        by_cases h2 : k2 = k
        · have h3 : ¬ k1 = k := fun he => h (h2.trans he.symm)
          simp [h2, h3]
        · simp [h2, ih]

theorem jsLookup_foldl_set_of_not_mem (k : String) (X : ColorMap) (st : Cfg)
    (hk : k ∉ X.map Prod.fst) :
    jsLookup k (X.foldl (fun acc p => jsSet p.1 (.vstr p.2) acc) st) = jsLookup k st := by
  induction X generalizing st with
  | nil => rfl
  | cons p rest ih =>
      simp only [List.map_cons, List.mem_cons] at hk
      push_neg at hk
      simp only [List.foldl_cons]
      rw [ih _ hk.2, jsLookup_jsSet, if_neg (fun he => hk.1 he.symm)]

theorem jsLookup_foldl_erase_of_not_mem (k : String) (ks : List String) (st : Cfg)
    (hk : k ∉ ks) :
    jsLookup k (ks.foldl (fun acc k1 => eraseKey k1 acc) st) = jsLookup k st := by
  induction ks generalizing st with
  | nil => rfl
  | cons k1 rest ih =>
      simp only [List.mem_cons] at hk
      push_neg at hk
      simp only [List.foldl_cons]
      rw [ih _ hk.2, jsLookup_eraseKey, if_neg (fun he => hk.1 he.symm)]

theorem jsLookup_foldl_erase_none (k : String) (ks : List String) (st : Cfg)
    (h : jsLookup k st = none) :
    jsLookup k (ks.foldl (fun acc k1 => eraseKey k1 acc) st) = none := by
  induction ks generalizing st with
  | nil => exact h
  | cons k1 rest ih =>
      simp only [List.foldl_cons]
      refine ih _ ?_
      rw [jsLookup_eraseKey]
      by_cases h1 : k1 = k <;> simp [h1, h]

theorem jsLookup_foldl_erase_of_mem (k : String) (ks : List String) (st : Cfg)
    (hk : k ∈ ks) :
    jsLookup k (ks.foldl (fun acc k1 => eraseKey k1 acc) st) = none := by
  induction ks generalizing st with
  | nil => cases hk
  | cons k1 rest ih =>
      simp only [List.foldl_cons]
      rcases List.mem_cons.mp hk with h | h
      · subst h
        exact jsLookup_foldl_erase_none _ _ _ (by rw [jsLookup_eraseKey, if_pos rfl])
      · exact ih _ h

theorem lastVal_foldl_init (k : String) (X : ColorMap) (a : Option String) :
    X.foldl (fun acc p => if p.1 = k then some p.2 else acc) a =
      match lastVal k X with
      | some v => some v
      | none => a := by
  induction X generalizing a with
  | nil => simp [lastVal]
  | cons p rest ih =>
      simp only [lastVal, List.foldl_cons] at ih ⊢
      by_cases h : p.1 = k
      · simp only [if_pos h]
        rw [ih (some p.2)]
        cases rest.foldl (fun acc q => if q.1 = k then some q.2 else acc) none <;> rfl
      · simp only [if_neg h]
        exact ih a

theorem jsLookup_foldl_set (k : String) (X : ColorMap) (st : Cfg) :
    jsLookup k (X.foldl (fun acc p => jsSet p.1 (.vstr p.2) acc) st) =
      match lastVal k X with
      | some v => some (.vstr v)
      | none => jsLookup k st := by
  induction X generalizing st with
  | nil => simp [lastVal]
  | cons p rest ih =>
      simp only [lastVal, List.foldl_cons] at ih ⊢
      rw [ih]
      have hinit := lastVal_foldl_init k rest (if p.1 = k then some p.2 else none)
      simp only [lastVal] at hinit
      rw [hinit]
      cases hR : rest.foldl (fun acc p => if p.1 = k then some p.2 else acc) none with
      | some v => rfl
      | none => by_cases h : p.1 = k <;> simp [jsLookup_jsSet, h]

theorem lastVal_eq_none_iff (k : String) (X : ColorMap) :
    lastVal k X = none ↔ k ∉ X.map Prod.fst := by
  induction X with
  | nil => simp [lastVal]
  | cons p rest ih =>
      simp only [lastVal, List.foldl_cons, List.map_cons, List.mem_cons] at ih ⊢
      have hinit := lastVal_foldl_init k rest (if p.1 = k then some p.2 else none)
      simp only [lastVal] at hinit
      rw [hinit]
      cases hR : rest.foldl (fun acc p => if p.1 = k then some p.2 else acc) none with
      | some v =>
          rw [hR] at ih
          simp only [reduceCtorEq, false_iff, not_not] at ih
          simp [ih]
      | none =>
          have hmem := ih.mp hR
          by_cases h : p.1 = k
          · simp [h, hmem]
          · simp only [if_neg h]
            simp [hmem]
            exact fun he => h he.symm

/-! ## Lemmas about the owned-key list and `applyColors`/`clearColors` -/

theorem strListAux_map_vstr (ks : List String) :
    strListAux (ks.map .vstr) = some ks := by
  induction ks with
  | nil => rfl
  | cons s rest ih => simp [strListAux, ih]

theorem strListAux_eq_some (l : List JVal) (ks : List String)
    (h : strListAux l = some ks) : l = ks.map .vstr := by
  induction l generalizing ks with
  | nil =>
      simp only [strListAux, Option.some_inj] at h
      subst h; rfl
  | cons v rest ih =>
      cases v with
      | vstr s =>
          simp only [strListAux, Option.map_eq_some'] at h
          obtain ⟨tl, htl, hks⟩ := h
          subst hks
          simp [ih _ htl]
      | vnum n => simp [strListAux] at h
      | vbool b => simp [strListAux] at h
      | vnull => simp [strListAux] at h
      | varr l2 => simp [strListAux] at h
      | vobj f => simp [strListAux] at h
      | vfun => simp [strListAux] at h

theorem applyColorsFn_eq_of_ownedKeys (st : Cfg) (X : ColorMap) (t : String)
    (ks : List String) (hwf : ownedKeys st = some ks) :
    applyColorsFn st X t = .ok (applyPure st ks X t) := by
  unfold ownedKeys at hwf
  cases hpv : previouslyManagedVal st with
  | varr l =>
      rw [hpv] at hwf
      simp only [strListOf] at hwf
      have hl : l = ks.map .vstr := strListAux_eq_some _ _ hwf
      subst hl
      simp only [applyColorsFn, hpv, jsIterate, applyPure]
      rw [List.foldl_map]
      rfl
  | vstr s => rw [hpv] at hwf; simp [strListOf] at hwf
  | vnum n => rw [hpv] at hwf; simp [strListOf] at hwf
  | vbool b => rw [hpv] at hwf; simp [strListOf] at hwf
  | vnull => rw [hpv] at hwf; simp [strListOf] at hwf
  | vobj f => rw [hpv] at hwf; simp [strListOf] at hwf
  | vfun => rw [hpv] at hwf; simp [strListOf] at hwf

theorem jsLookup_managed_applyPure (st : Cfg) (prev : List String) (X : ColorMap)
    (t : String) :
    jsLookup MANAGED_KEY (applyPure st prev X t) = some (metaVal (X.map Prod.fst) t) := by
  unfold applyPure
  rw [jsLookup_jsSet, if_pos rfl]

theorem ownedKeys_applyPure (st : Cfg) (prev : List String) (X : ColorMap) (t : String) :
    ownedKeys (applyPure st prev X t) = some (X.map Prod.fst) := by
  unfold ownedKeys previouslyManagedVal
  rw [jsLookup_managed_applyPure]
  show strListOf
      (match jsGetProp (metaVal (X.map Prod.fst) t) "keys" with
        | none => JVal.varr []
        | some JVal.vnull => JVal.varr []
        | some v => v) = some (X.map Prod.fst)
  rw [show jsGetProp (metaVal (X.map Prod.fst) t) "keys"
      = some (JVal.varr ((X.map Prod.fst).map JVal.vstr)) from by
        simp [metaVal, jsGetProp, jsLookup]]
  show strListOf (JVal.varr ((X.map Prod.fst).map JVal.vstr)) = some (X.map Prod.fst)
  simp only [strListOf]
  exact strListAux_map_vstr _

theorem jsLookup_applyPure_of_not_mem (st : Cfg) (prev : List String) (X : ColorMap)
    (t : String) (k : String) (hkM : k ≠ MANAGED_KEY) (hkX : k ∉ X.map Prod.fst)
    (hkP : k ∉ prev) :
    jsLookup k (applyPure st prev X t) = jsLookup k st := by
  unfold applyPure
  rw [jsLookup_jsSet, if_neg (fun he => hkM he.symm),
    jsLookup_foldl_set_of_not_mem _ _ _ hkX,
    jsLookup_eraseKey, if_neg (fun he => hkM he.symm),
    jsLookup_foldl_erase_of_not_mem _ _ _ hkP]

theorem runOp_apply_of_ownedKeys (st : Cfg) (X : ColorMap) (t : String)
    (ks : List String) (hwf : ownedKeys st = some ks) :
    runOp st (.apply X t) = applyPure st ks X t := by
  simp [runOp, applyColorsFn_eq_of_ownedKeys st X t ks hwf]

/-! Characterizations of `previouslyManagedVal` and `clearColorsFn` by the
shape of the stored metadata. -/

theorem previouslyManagedVal_absent (st : Cfg)
    (hm : jsLookup MANAGED_KEY st = none) :
    previouslyManagedVal st = .varr [] := by
  unfold previouslyManagedVal
  rw [hm]

theorem previouslyManagedVal_eq_keys (st : Cfg) (m keysv : JVal)
    (hm : jsLookup MANAGED_KEY st = some m) (hmn : m ≠ .vnull)
    (hkv : jsGetProp m "keys" = some keysv) (hkn : keysv ≠ .vnull) :
    previouslyManagedVal st = keysv := by
  unfold previouslyManagedVal
  rw [hm]
  cases m <;> cases keysv <;> simp_all

theorem previouslyManagedVal_no_keys (st : Cfg) (m : JVal)
    (hm : jsLookup MANAGED_KEY st = some m) (hmn : m ≠ .vnull)
    (hkv : jsGetProp m "keys" = none ∨ jsGetProp m "keys" = some .vnull) :
    previouslyManagedVal st = .varr [] := by
  unfold previouslyManagedVal
  rw [hm]
  rcases hkv with hkv | hkv <;> cases m <;> simp_all

theorem clearColorsFn_noop_absent (st : Cfg)
    (hm : jsLookup MANAGED_KEY st = none) :
    clearColorsFn st = .ok st := by
  unfold clearColorsFn
  rw [hm]

theorem clearColorsFn_noop_falsy (st : Cfg) (m : JVal)
    (hm : jsLookup MANAGED_KEY st = some m) (hf : isFalsy m = true) :
    clearColorsFn st = .ok st := by
  unfold clearColorsFn
  rw [hm]
  cases m <;> simp_all

theorem clearColorsFn_err_no_keys (st : Cfg) (m : JVal)
    (hm : jsLookup MANAGED_KEY st = some m) (hf : isFalsy m = false)
    (hkv : jsGetProp m "keys" = none ∨ jsGetProp m "keys" = some .vnull) :
    clearColorsFn st = .error () := by
  unfold clearColorsFn
  rw [hm]
  rcases hkv with hkv | hkv <;> cases m <;> simp_all

theorem clearColorsFn_eq_tail (st : Cfg) (m keysv : JVal)
    (hm : jsLookup MANAGED_KEY st = some m) (hf : isFalsy m = false)
    (hkv : jsGetProp m "keys" = some keysv) (hkn : keysv ≠ .vnull) :
    clearColorsFn st = clearTail st keysv := by
  unfold clearColorsFn
  rw [hm]
  cases m <;> cases keysv <;> simp_all

theorem clearTail_nil (st : Cfg) :
    clearTail st (.varr []) = .ok st := by
  simp [clearTail, jsGetProp]

theorem clearTail_strings (st : Cfg) (ks : List String) (hne : ks ≠ []) :
    clearTail st (.varr (ks.map .vstr)) =
      .ok (eraseKey MANAGED_KEY (ks.foldl (fun acc k1 => eraseKey k1 acc) st)) := by
  have hprop : jsGetProp (.varr (ks.map .vstr)) "length"
      = some (.vnum (Int.ofNat ((ks.map JVal.vstr).length))) := by
    simp [jsGetProp]
  have hlen : ((Int.ofNat ((ks.map JVal.vstr).length) == 0) : Bool) = false := by
    cases ks with
    | nil => exact absurd rfl hne
    | cons a l =>
        simp
        omega
  simp only [clearTail, hprop, hlen, Bool.false_eq_true, if_false, jsIterate]
  rw [List.foldl_map]
  rfl

/-- The single-step invariant behind the user-key safety claim: from a
well-formed state whose owned list avoids `k`, one `clearColors` call leaves
the binding of `k` unchanged, and the new owned list is still well-formed
and still avoids `k` (it is a subset of the old one). -/
theorem clear_preserve (st : Cfg) (ks : List String) (k : String)
    (hwf : ownedKeys st = some ks) (hk : k ∉ ks) (hkM : k ≠ MANAGED_KEY) :
    jsLookup k (runOp st .clear) = jsLookup k st ∧
      ∃ ks1, ownedKeys (runOp st .clear) = some ks1 ∧ ∀ x ∈ ks1, x ∈ ks := by
  cases hm : jsLookup MANAGED_KEY st with
  | none =>
      have hrun : runOp st .clear = st := by
        simp [runOp, clearColorsFn_noop_absent st hm]
      rw [hrun]
      exact ⟨rfl, ks, hwf, fun x hx => hx⟩
  | some m =>
      by_cases hf : isFalsy m = true
      · have hrun : runOp st .clear = st := by
          simp [runOp, clearColorsFn_noop_falsy st m hm hf]
        rw [hrun]
        exact ⟨rfl, ks, hwf, fun x hx => hx⟩
      · rw [Bool.not_eq_true] at hf
        have hmn : m ≠ .vnull := by rintro rfl; simp [isFalsy] at hf
        cases hkv : jsGetProp m "keys" with
        | none =>
            have hrun : runOp st .clear = st := by
              simp [runOp, clearColorsFn_err_no_keys st m hm hf (Or.inl hkv)]
            rw [hrun]
            exact ⟨rfl, ks, hwf, fun x hx => hx⟩
        | some keysv =>
            by_cases hkn : keysv = .vnull
            · subst hkn
              have hrun : runOp st .clear = st := by
                simp [runOp, clearColorsFn_err_no_keys st m hm hf (Or.inr hkv)]
              rw [hrun]
              exact ⟨rfl, ks, hwf, fun x hx => hx⟩
            · have hpv := previouslyManagedVal_eq_keys st m keysv hm hmn hkv hkn
              have hkeysv : keysv = .varr (ks.map .vstr) := by
                have hwf2 := hwf
                unfold ownedKeys at hwf2
                rw [hpv] at hwf2
                cases keysv with
                | varr l =>
                    simp only [strListOf] at hwf2
                    rw [strListAux_eq_some _ _ hwf2]
                | vstr s => simp [strListOf] at hwf2
                | vnum n => simp [strListOf] at hwf2
                | vbool b => simp [strListOf] at hwf2
                | vnull => simp [strListOf] at hwf2
                | vobj f => simp [strListOf] at hwf2
                | vfun => simp [strListOf] at hwf2
            
              subst hkeysv
              cases ks with
              | nil =>
                  have hrun : runOp st .clear = st := by
                    have := clearColorsFn_eq_tail st m _ hm hf hkv hkn
                    simp only [List.map_nil] at this
                    rw [clearTail_nil] at this
                    simp [runOp, this]
                  rw [hrun]
                  exact ⟨rfl, [], hwf, fun x hx => hx⟩
              | cons k0 tl =>
                  have hrun : runOp st .clear =
                      eraseKey MANAGED_KEY
                        ((k0 :: tl).foldl (fun acc k1 => eraseKey k1 acc) st) := by
                    have := clearColorsFn_eq_tail st m _ hm hf hkv hkn
                    rw [clearTail_strings st (k0 :: tl) (List.cons_ne_nil _ _)] at this
                    simp [runOp, this]
                  rw [hrun]
                  constructor
                  · rw [jsLookup_eraseKey, if_neg (fun he => hkM he.symm),
                      jsLookup_foldl_erase_of_not_mem _ _ _ hk]
                  · refine ⟨[], ?_, by simp⟩
                    have habs : jsLookup MANAGED_KEY
                        (eraseKey MANAGED_KEY
                          ((k0 :: tl).foldl (fun acc k1 => eraseKey k1 acc) st)) = none := by
                      rw [jsLookup_eraseKey, if_pos rfl]
                    unfold ownedKeys
                    rw [previouslyManagedVal_absent _ habs]
                    rfl

/-- The single-step invariant for `applyColors`: from a well-formed state
whose owned list avoids `k`, an apply of colors avoiding `k` leaves the
binding of `k` unchanged, and the new owned list is the applied key list. -/
theorem apply_preserve (st : Cfg) (ks : List String) (X : ColorMap) (t k : String)
    (hwf : ownedKeys st = some ks) (hk : k ∉ ks) (hkM : k ≠ MANAGED_KEY)
    (hkX : k ∉ X.map Prod.fst) :
    jsLookup k (runOp st (.apply X t)) = jsLookup k st ∧
      ownedKeys (runOp st (.apply X t)) = some (X.map Prod.fst) := by
  rw [runOp_apply_of_ownedKeys st X t ks hwf]
  exact ⟨jsLookup_applyPure_of_not_mem st ks X t k hkM hkX hk,
    ownedKeys_applyPure st ks X t⟩

theorem previouslyManagedVal_default (st : Cfg) (h : MetaDefaultsEmpty st) :
    previouslyManagedVal st = .varr [] := by
  cases hm : jsLookup MANAGED_KEY st with
  | none => exact previouslyManagedVal_absent st hm
  | some m =>
      by_cases hmn : m = .vnull
      · subst hmn
        unfold previouslyManagedVal
        rw [hm]
      · rcases h m hm with hnull | hkv | hkv
        · exact absurd hnull hmn
        · exact previouslyManagedVal_no_keys st m hm hmn (Or.inl hkv)
        · exact previouslyManagedVal_no_keys st m hm hmn (Or.inr hkv)

/-! ## Lemmas about the palette scan -/

theorem sSet_append (k v : String) (c : List (String × String))
    (hk : k ∉ c.map Prod.fst) :
    sSet k v c = c ++ [(k, v)] := by
  induction c with
  | nil => rfl
  | cons p rest ih =>
      obtain ⟨k1, v1⟩ := p
      simp only [List.map_cons, List.mem_cons] at hk
      push_neg at hk
      simp only [sSet, List.cons_append]
      rw [ih hk.2, if_neg (fun he : k1 = k => hk.1 he.symm)]

theorem paletteScan_fst (es : List (String × JVal)) :
    ∀ (c0 : List (String × String)) (n0 : Nat),
      (es.map Prod.fst).Nodup → (∀ k1 ∈ es.map Prod.fst, k1 ∉ c0.map Prod.fst) →
      (es.foldl paletteStep (c0, n0)).1 = c0 ++ es.filterMap goodOpt := by
  induction es with
  | nil => intro c0 n0 _ _; simp
  | cons e rest ih =>
      intro c0 n0 hnd hdisj
      obtain ⟨k0, v0⟩ := e
      simp only [List.map_cons, List.nodup_cons] at hnd
      have hdisj0 : k0 ∉ c0.map Prod.fst := hdisj k0 (by simp)
      have hdisjR : ∀ k1 ∈ rest.map Prod.fst, k1 ∉ c0.map Prod.fst :=
        fun k1 h1 => hdisj k1 (by simp [h1])
      simp only [List.foldl_cons]
      by_cases ht : isColorToken k0
      · cases v0 with
        | vstr s =>
            by_cases hh : isHex s
            · have hstep : paletteStep (c0, n0) (k0, .vstr s) = (sSet k0 s c0, n0) := by
                simp [paletteStep, ht, hh]
              rw [hstep, sSet_append k0 s c0 hdisj0,
                ih (c0 ++ [(k0, s)]) n0 hnd.2 ?_]
              · simp [goodOpt, ht, hh]
              · intro k1 h1
                simp only [List.map_append, List.mem_append, List.map_cons,
                  List.map_nil, List.mem_singleton]
                push_neg
                refine ⟨hdisjR k1 h1, ?_⟩
                rintro rfl
                exact hnd.1 h1
            · have hstep : paletteStep (c0, n0) (k0, .vstr s) = (c0, n0 + 1) := by
                simp [paletteStep, ht, hh]
              rw [hstep, ih c0 (n0 + 1) hnd.2 hdisjR]
              simp [goodOpt, ht, hh]
        | vnum n =>
            have hstep : paletteStep (c0, n0) (k0, .vnum n) = (c0, n0 + 1) := by
              simp [paletteStep, ht]
            rw [hstep, ih c0 (n0 + 1) hnd.2 hdisjR]
            simp [goodOpt, ht]
        | vbool b =>
            have hstep : paletteStep (c0, n0) (k0, .vbool b) = (c0, n0 + 1) := by
              simp [paletteStep, ht]
            rw [hstep, ih c0 (n0 + 1) hnd.2 hdisjR]
            simp [goodOpt, ht]
        | vnull =>
            have hstep : paletteStep (c0, n0) (k0, .vnull) = (c0, n0 + 1) := by
              simp [paletteStep, ht]
            rw [hstep, ih c0 (n0 + 1) hnd.2 hdisjR]
            simp [goodOpt, ht]
        | varr l =>
            have hstep : paletteStep (c0, n0) (k0, .varr l) = (c0, n0 + 1) := by
              simp [paletteStep, ht]
            rw [hstep, ih c0 (n0 + 1) hnd.2 hdisjR]
            simp [goodOpt, ht]
        | vobj f =>
            have hstep : paletteStep (c0, n0) (k0, .vobj f) = (c0, n0 + 1) := by
              simp [paletteStep, ht]
            rw [hstep, ih c0 (n0 + 1) hnd.2 hdisjR]
            simp [goodOpt, ht]
        | vfun =>
            have hstep : paletteStep (c0, n0) (k0, .vfun) = (c0, n0 + 1) := by
              simp [paletteStep, ht]
            rw [hstep, ih c0 (n0 + 1) hnd.2 hdisjR]
            simp [goodOpt, ht]
      · have hstep : paletteStep (c0, n0) (k0, v0) = (c0, n0) := by
          simp [paletteStep, ht]
        rw [hstep, ih c0 n0 hnd.2 hdisjR]
        simp [goodOpt, ht]

theorem paletteScan_snd (es : List (String × JVal)) :
    ∀ (c0 : List (String × String)) (n0 : Nat),
      (es.foldl paletteStep (c0, n0)).2 =
        n0 + es.countP (fun e => isColorToken e.1 && !isHexStrVal e.2) := by
  induction es with
  | nil => intro c0 n0; simp
  | cons e rest ih =>
      intro c0 n0
      obtain ⟨k0, v0⟩ := e
      simp only [List.foldl_cons, List.countP_cons]
      by_cases ht : isColorToken k0
      · cases v0 with
        | vstr s =>
            by_cases hh : isHex s
            · have hstep : paletteStep (c0, n0) (k0, .vstr s) = (sSet k0 s c0, n0) := by
                simp [paletteStep, ht, hh]
              rw [hstep, ih]
              simp [isHexStrVal, ht, hh]
            · have hstep : paletteStep (c0, n0) (k0, .vstr s) = (c0, n0 + 1) := by
                simp [paletteStep, ht, hh]
              rw [hstep, ih]
              simp [isHexStrVal, ht, hh]
              omega
        | vnum n =>
            have hstep : paletteStep (c0, n0) (k0, .vnum n) = (c0, n0 + 1) := by
              simp [paletteStep, ht]
            rw [hstep, ih]
            simp [isHexStrVal, ht]
            omega
        | vbool b =>
            have hstep : paletteStep (c0, n0) (k0, .vbool b) = (c0, n0 + 1) := by
              simp [paletteStep, ht]
            rw [hstep, ih]
            simp [isHexStrVal, ht]
            omega
        | vnull =>
            have hstep : paletteStep (c0, n0) (k0, .vnull) = (c0, n0 + 1) := by
              simp [paletteStep, ht]
            rw [hstep, ih]
            simp [isHexStrVal, ht]
            omega
        | varr l =>
            have hstep : paletteStep (c0, n0) (k0, .varr l) = (c0, n0 + 1) := by
              simp [paletteStep, ht]
            rw [hstep, ih]
            simp [isHexStrVal, ht]
            omega
        | vobj f =>
            have hstep : paletteStep (c0, n0) (k0, .vobj f) = (c0, n0 + 1) := by
              simp [paletteStep, ht]
            rw [hstep, ih]
            simp [isHexStrVal, ht]
            omega
        | vfun =>
            have hstep : paletteStep (c0, n0) (k0, .vfun) = (c0, n0 + 1) := by
              simp [paletteStep, ht]
            rw [hstep, ih]
            simp [isHexStrVal, ht]
            omega
      · have hstep : paletteStep (c0, n0) (k0, v0) = (c0, n0) := by
          simp [paletteStep, ht]
        rw [hstep, ih]
        simp [isHexStrVal, ht]

/-! ## Lemmas about the debouncer -/

theorem debRun_cancel {α : Type} (delay t ft : Nat) (a pa : α) (rest : List (Nat × α))
    (h : ¬ ft ≤ t) :
    debRun delay ((t, a) :: rest) (some (ft, pa)) =
      debRun delay ((t, a) :: rest) none := by
  simp [debRun, h]

theorem debounce_burst {α : Type} (delay : Nat) (calls : List (Nat × α))
    (hne : calls ≠ [])
    (hburst : List.Chain' (fun p q => p.1 ≤ q.1 ∧ q.1 < p.1 + delay) calls) :
    ∃ last, calls.getLast? = some last ∧
      debRun delay calls none = [(last.1 + delay, last.2)] := by
  induction calls with
  | nil => exact absurd rfl hne
  | cons p tail ih =>
      cases tail with
      | nil =>
          obtain ⟨t, a⟩ := p
          exact ⟨(t, a), by simp, by simp [debRun]⟩
      | cons q rest =>
          obtain ⟨last, hl, hd⟩ :=
            ih (List.cons_ne_nil _ _) (List.chain'_cons.mp hburst).2
          refine ⟨last, ?_, ?_⟩
          · rw [List.getLast?_cons_cons, hl]
          · have hpq := (List.chain'_cons.mp hburst).1
            have hstep : debRun delay (p :: q :: rest) none
                = debRun delay (q :: rest) none := by
              obtain ⟨t, a⟩ := p
              obtain ⟨tq, aq⟩ := q
              have hlt : ¬ (t + delay ≤ tq) := by
                have h2 := hpq.2
                simp only at h2
                omega
              simp [debRun, hlt]
            rw [hstep, hd]

/-! ## Claim theorems -/

/-- C1: for every shared-configuration object with well-formed (or absent)
metadata whose owned-key list is `ks`, and every sequence of
`applyColors`/`clearColors` calls, any key `k` that is neither in `ks` nor
in any applied `newColors` map, and is not the reserved metadata key, keeps
exactly the value it had before the sequence ran. -/
theorem C1_user_key_preservation (st : Cfg) (ops : List BridgeOp) (k : String)
    (ks : List String) (hwf : ownedKeys st = some ks) (hk : k ∉ ks)
    (hops : ∀ op ∈ ops, k ∉ opColors op) (hkM : k ≠ MANAGED_KEY) :
    jsLookup k (runOps st ops) = jsLookup k st := by
  revert hops
  induction ops generalizing st ks with
  | nil => intro _; rfl
  | cons op rest ih =>
      intro hops
      have hop := hops op (List.mem_cons_self op rest)
      have hrest : ∀ op1 ∈ rest, k ∉ opColors op1 :=
        fun op1 h1 => hops op1 (List.mem_cons_of_mem _ h1)
      cases op with
      | apply X t =>
          have hkX : k ∉ X.map Prod.fst := by simpa [opColors] using hop
          have h1 := apply_preserve st ks X t k hwf hk hkM hkX
          calc jsLookup k (runOps st (.apply X t :: rest))
              = jsLookup k (runOps (runOp st (.apply X t)) rest) := rfl
            _ = jsLookup k (runOp st (.apply X t)) := ih _ _ h1.2 hkX hrest
            _ = jsLookup k st := h1.1
      | clear =>
          obtain ⟨hpres, ks1, hwf1, hsub⟩ := clear_preserve st ks k hwf hk hkM
          calc jsLookup k (runOps st (.clear :: rest))
              = jsLookup k (runOps (runOp st .clear) rest) := rfl
            _ = jsLookup k (runOp st .clear) :=
                ih _ _ hwf1 (fun hmem => hk (hsub k hmem)) hrest
            _ = jsLookup k st := hpres

/-- Witness for C1 at a concrete state and call sequence. -/
theorem C1_user_key_preservation_witness :
    jsLookup "user.k"
      (runOps [("user.k", .vstr "#123"), (MANAGED_KEY, metaVal ["old.a"] "T0")]
        [.apply [("new.b", "#fff")] "T1", .clear]) =
    jsLookup "user.k"
      [("user.k", .vstr "#123"), (MANAGED_KEY, metaVal ["old.a"] "T0")] :=
  C1_user_key_preservation _ _ "user.k" ["old.a"] rfl (by decide)
    (by decide) (by decide)

/-- C2: over the own entries of a parsed palette object (unique keys),
`readPalette` succeeds exactly when some entry has a token-shaped key
(no `_` prefix, contains `.`) and a hex-string value, the success value is
exactly the list of such entries, and zero such entries give the
`EmptyPalette` error rather than an empty success. -/
theorem C2_readPalette_characterization (es : List (String × JVal))
    (hnd : (es.map Prod.fst).Nodup) :
    readPaletteObj es =
      if (es.filterMap goodOpt).isEmpty then
        .err "Palette file contained no valid VS Code color tokens."
      else .ok (es.filterMap goodOpt) := by
  simp only [readPaletteObj, paletteScan]
  rw [paletteScan_fst es [] 0 hnd (by simp)]
  simp only [List.nil_append]
  cases hgl : es.filterMap goodOpt with
  | nil => simp
  | cons a l => simp

/-- Witness for C2 on the spec's scenario palette. -/
theorem C2_readPalette_characterization_witness :
    readPaletteObj [("_meta", .vobj [("variant", .vstr "x")]),
      ("editor.background", .vstr "#112233"), ("bad.token", .vstr "notacolor")] =
      .ok [("editor.background", "#112233")] := by
  rw [C2_readPalette_characterization _ (by decide)]
  rfl

/-- C3 counterexample: with the empty color map (and empty starting state),
`applyColors` then `clearColors` leaves the reserved metadata key present —
`clearColors` is a no-op when the freshly written owned list is empty — so
the claimed absence of the metadata key fails for `X = {}`. -/
theorem C3_counterexample :
    jsLookup MANAGED_KEY (runOps [] [.apply [] "T0", .clear]) =
      some (metaVal [] "T0") := rfl

/-- C3 (amended to nonempty `X`): from a well-formed state, after
`applyColors(X)` then `clearColors()` every key of `X` is absent, the
reserved metadata key is absent, and every other key (not previously owned)
keeps its original binding. -/
theorem C3_roundtrip (st : Cfg) (X : ColorMap) (t : String) (ks : List String)
    (hwf : ownedKeys st = some ks) (hne : X ≠ []) :
    (∀ k ∈ X.map Prod.fst, jsLookup k (runOps st [.apply X t, .clear]) = none) ∧
    jsLookup MANAGED_KEY (runOps st [.apply X t, .clear]) = none ∧
    (∀ k, k ∉ X.map Prod.fst → k ∉ ks → k ≠ MANAGED_KEY →
      jsLookup k (runOps st [.apply X t, .clear]) = jsLookup k st) := by
  have h1 : runOp st (.apply X t) = applyPure st ks X t :=
    runOp_apply_of_ownedKeys st X t ks hwf
  have hmA : jsLookup MANAGED_KEY (applyPure st ks X t)
      = some (metaVal (X.map Prod.fst) t) := jsLookup_managed_applyPure st ks X t
  have hkvA : jsGetProp (metaVal (X.map Prod.fst) t) "keys"
      = some (.varr ((X.map Prod.fst).map .vstr)) := by
    simp [metaVal, jsGetProp, jsLookup]
  have hXkeys : X.map Prod.fst ≠ [] := by
    cases X with
    | nil => exact absurd rfl hne
    | cons a l => simp
  have htail := clearColorsFn_eq_tail (applyPure st ks X t) _ _ hmA rfl hkvA (by simp)
  rw [clearTail_strings _ (X.map Prod.fst) hXkeys] at htail
  have hrun : runOps st [.apply X t, .clear] =
      eraseKey MANAGED_KEY
        ((X.map Prod.fst).foldl (fun acc k1 => eraseKey k1 acc) (applyPure st ks X t)) := by
    show runOp (runOp st (.apply X t)) .clear = _
    rw [h1]
    simp [runOp, htail]
  rw [hrun]
  refine ⟨?_, ?_, ?_⟩
  · intro k1 hk1
    by_cases hM : MANAGED_KEY = k1
    · rw [jsLookup_eraseKey, if_pos hM]
    · rw [jsLookup_eraseKey, if_neg hM, jsLookup_foldl_erase_of_mem _ _ _ hk1]
  · rw [jsLookup_eraseKey, if_pos rfl]
  · intro k1 hk1X hk1ks hk1M
    rw [jsLookup_eraseKey, if_neg (fun he : MANAGED_KEY = k1 => hk1M he.symm),
      jsLookup_foldl_erase_of_not_mem _ _ _ hk1X,
      jsLookup_applyPure_of_not_mem st ks X t k1 hk1M hk1X hk1ks]

/-- Witness for C3 (amended) at a concrete state. -/
theorem C3_roundtrip_witness :
    jsLookup "a.b"
      (runOps [("u.k", .vstr "#0")] [.apply [("a.b", "#f")] "T", .clear]) = none ∧
    jsLookup "u.k"
      (runOps [("u.k", .vstr "#0")] [.apply [("a.b", "#f")] "T", .clear]) =
      some (.vstr "#0") := by
  obtain ⟨h1, h2, h3⟩ :=
    C3_roundtrip [("u.k", .vstr "#0")] [("a.b", "#f")] "T" [] rfl (by decide)
  refine ⟨h1 "a.b" (by decide), ?_⟩
  rw [h3 "u.k" (by decide) (by decide) (by decide)]
  rfl

/-- C4: applying the same color map twice yields, pointwise as a key-value
mapping, the same shared configuration as applying it once, when the single
apply carries the second call's timestamp — i.e. the final states are
identical except possibly for `appliedAt` inside the metadata record.  (The
spec models the shared configuration as a mapping from keys to values;
equality of states is equality of that mapping.) -/
theorem C4_apply_idempotent (st : Cfg) (X : ColorMap) (t1 t2 : String)
    (ks : List String) (hwf : ownedKeys st = some ks) (k : String) :
    jsLookup k (runOps st [.apply X t1, .apply X t2]) =
      jsLookup k (runOps st [.apply X t2]) := by
  have h1 : runOp st (.apply X t1) = applyPure st ks X t1 :=
    runOp_apply_of_ownedKeys st X t1 ks hwf
  have h2 := ownedKeys_applyPure st ks X t1
  have e1 : runOps st [.apply X t1, .apply X t2]
      = applyPure (applyPure st ks X t1) (X.map Prod.fst) X t2 := by
    show runOp (runOp st (.apply X t1)) (.apply X t2) = _
    rw [h1, runOp_apply_of_ownedKeys _ X t2 _ h2]
  have e2 : runOps st [.apply X t2] = applyPure st ks X t2 := by
    show runOp st (.apply X t2) = _
    exact runOp_apply_of_ownedKeys st X t2 ks hwf
  rw [e1, e2]
  by_cases hkM : k = MANAGED_KEY
  · subst hkM
    rw [jsLookup_managed_applyPure, jsLookup_managed_applyPure]
  · have lookfn : ∀ (Y : Cfg) (prev : List String) (tt : String),
        jsLookup k (applyPure Y prev X tt) =
          match lastVal k X with
          | some v => some (.vstr v)
          | none =>
              jsLookup k (eraseKey MANAGED_KEY
                (prev.foldl (fun acc k1 => eraseKey k1 acc) Y)) := by
      intro Y prev tt
      unfold applyPure
      rw [jsLookup_jsSet, if_neg (fun he : MANAGED_KEY = k => hkM he.symm),
        jsLookup_foldl_set]
    rw [lookfn, lookfn]
    cases hl : lastVal k X with
    | some v => rfl
    | none =>
        have hkX : k ∉ X.map Prod.fst := (lastVal_eq_none_iff k X).mp hl
        rw [jsLookup_eraseKey k MANAGED_KEY
            ((X.map Prod.fst).foldl (fun acc k1 => eraseKey k1 acc)
              (applyPure st ks X t1)),
          if_neg (fun he : MANAGED_KEY = k => hkM he.symm),
          jsLookup_foldl_erase_of_not_mem k (X.map Prod.fst)
            (applyPure st ks X t1) hkX,
          lookfn st ks t1, hl]

/-- Witness for C4 at a concrete state. -/
theorem C4_apply_idempotent_witness :
    jsLookup "z.z" (runOps [("a.b", .vstr "#000"), ("z.z", .vstr "#111")]
      [.apply [("a.b", "#fff")] "T1", .apply [("a.b", "#fff")] "T2"]) =
    jsLookup "z.z" (runOps [("a.b", .vstr "#000"), ("z.z", .vstr "#111")]
      [.apply [("a.b", "#fff")] "T2"]) :=
  C4_apply_idempotent [("a.b", .vstr "#000"), ("z.z", .vstr "#111")]
    [("a.b", "#fff")] "T1" "T2" [] rfl "z.z"

/-- C5 counterexample: with a metadata record whose `keys` field is the
number `1`, `applyColors` faults (`for..of` over a non-iterable value
throws a `TypeError`) instead of proceeding with an empty owned list. -/
theorem C5_counterexample :
    applyColorsFn [("user.one", .vstr "#111"),
      (MANAGED_KEY, .vobj [("keys", .vnum 1), ("appliedAt", .vstr "T0")])]
      [("c.d", "#fff")] "T1" = .error () := rfl

/-- C5 (amended): when the metadata entry is absent, `null`, or lacks a
usable (non-nullish) `keys` property, `applyColors` proceeds with an empty
owned list — it deletes no key other than the reserved metadata key before
merging `newColors`, and it does not fault. -/
theorem C5_malformed_meta_defaults (st : Cfg) (X : ColorMap) (t : String)
    (h : MetaDefaultsEmpty st) :
    applyColorsFn st X t = .ok (applyPure st [] X t) ∧
    ∀ k, k ≠ MANAGED_KEY → k ∉ X.map Prod.fst →
      jsLookup k (runOp st (.apply X t)) = jsLookup k st := by
  have hpv := previouslyManagedVal_default st h
  have heq : applyColorsFn st X t = .ok (applyPure st [] X t) := by
    simp only [applyColorsFn, hpv, jsIterate]
    rfl
  refine ⟨heq, fun k hkM hkX => ?_⟩
  have hro : runOp st (.apply X t) = applyPure st [] X t := by
    simp [runOp, heq]
  rw [hro]
  exact jsLookup_applyPure_of_not_mem st [] X t k hkM hkX (by simp)

/-- Witness for C5 (amended) on a state with no metadata entry. -/
theorem C5_malformed_meta_defaults_witness :
    applyColorsFn [("u.k", .vstr "#1")] [("c.d", "#fff")] "T"
      = .ok (applyPure [("u.k", .vstr "#1")] [] [("c.d", "#fff")] "T") :=
  (C5_malformed_meta_defaults _ _ "T"
    (by intro m hm; simp [jsLookup, MANAGED_KEY] at hm)).1

/-- C6: a chronological burst of `N ≥ 1` calls to a debounced callable, each
consecutive pair separated by less than `delayMs`, executes the wrapped
action exactly once — with the arguments of the last call — at `delayMs`
after that last call; the earlier calls' actions never execute. -/
theorem C6_debounce_burst {α : Type} (delay : Nat) (calls : List (Nat × α))
    (hne : calls ≠ [])
    (hburst : List.Chain' (fun p q => p.1 ≤ q.1 ∧ q.1 < p.1 + delay) calls) :
    ∃ last, calls.getLast? = some last ∧
      debRun delay calls none = [(last.1 + delay, last.2)] :=
  debounce_burst delay calls hne hburst

/-- Witness for C6: two calls 100 ms apart with a 300 ms delay execute once,
at t = 400, with the second call's argument. -/
theorem C6_debounce_burst_witness :
    debRun 300 [(0, 10), (100, 20)] none = [(400, 20)] := by
  obtain ⟨last, hl, hd⟩ := C6_debounce_burst 300 [(0, 10), (100, 20)]
    (by decide) (by simp [List.chain'_cons])
  have hlast : last = (100, 20) := by
    have h2 := hl
    simp at h2
    exact h2.symm
  rw [hlast] at hd
  simpa using hd

/-- C7 (code bug): a change event at t = 0 with debounceMs = 300 schedules
the debounced action for t = 300; restarting the watcher at t = 10 replaces
the debounce closure but never calls `clearTimeout` on its pending timer, so
the action still executes at t = 300, after the restart — the pending
invocation is not cancelled. -/
theorem C7_pending_timer_survives_restart :
    watcherRun ⟨0, 300, []⟩ [WEv.fileEvent 0, WEv.restart 10 300] = [300] := rfl

/-- C8 counterexample: on a state whose metadata entry is an object without
a `keys` field, `getManagedStatus` faults (`meta?.keys.length` evaluates
`undefined.length`), refuting "faults on no input". -/
theorem C8_counterexample :
    getManagedStatusFn [(MANAGED_KEY, .vobj [])] = .error () := rfl

/-- C8 (amended): `getManagedStatus` mutates nothing (it is a function of
the state alone), and returns `count = 0`, `appliedAt = null` whenever the
metadata entry is absent or `null`; it faults when the entry is present,
non-nullish and without a usable `keys` field. -/
theorem C8_status_pure_read (st : Cfg)
    (h : jsLookup MANAGED_KEY st = none ∨ jsLookup MANAGED_KEY st = some .vnull) :
    getManagedStatusFn st = .ok ⟨.vnum 0, .vnull⟩ := by
  rcases h with h | h <;> simp [getManagedStatusFn, h]

/-- Witness for C8 (amended) on the empty state. -/
theorem C8_status_pure_read_witness :
    getManagedStatusFn [] = .ok ⟨.vnum 0, .vnull⟩ :=
  C8_status_pure_read [] (Or.inl rfl)

/-- C9 counterexample: a key without a `.` separator (and without a `_`
prefix) is skipped silently — the skipped count stays 0, not 1 as the claim
states. -/
theorem C9_counterexample :
    (paletteScan [("nodot", .vstr "#fff")]).2 = 0 := rfl

/-- C9 (amended): the skipped count equals the number of entries whose key
is token-shaped but whose value is not a hex string; `_`-prefixed keys and
keys without a `.` separator are skipped without incrementing it. -/
theorem C9_skipped_count (es : List (String × JVal)) :
    (paletteScan es).2 =
      es.countP (fun e => isColorToken e.1 && !isHexStrVal e.2) := by
  unfold paletteScan
  rw [paletteScan_snd es [] 0]
  simp

/-- C10 counterexample: for `customPath = "~abc"` (no separator after `~`),
the code returns `path.join(homedir, "abc")`, which inserts a separator —
not the literal replacement of the `~` character the claim describes. -/
theorem C10_counterexample :
    resolvePalettePath (some "~abc") "/home/u" none = "/home/u/abc" ∧
      ("/home/u/abc" : String) ≠ "/home/u" ++ "abc" := by
  exact ⟨rfl, by decide⟩

/-- C10 (amended): an absent, empty or whitespace-only `customPath` yields
the platform default; a non-blank path not starting with `~` is returned
verbatim; a path starting with `~` is expanded as
`path.join(homedir, rest-after-~)`, which inserts a path separator when one
does not follow the `~`. -/
theorem C10_resolve_path (cp homedir : String) (xdg : Option String) :
    (resolvePalettePath none homedir xdg = defaultPalettePath homedir xdg) ∧
    (jsTrim cp = "" →
      resolvePalettePath (some cp) homedir xdg = defaultPalettePath homedir xdg) ∧
    (jsTrim cp ≠ "" → jsStartsWith cp "~" = false →
      resolvePalettePath (some cp) homedir xdg = cp) ∧
    (jsTrim cp ≠ "" → jsStartsWith cp "~" = true →
      resolvePalettePath (some cp) homedir xdg = posixJoin [homedir, cp.drop 1]) := by
  refine ⟨rfl, ?_, ?_, ?_⟩
  · intro h
    by_cases hcp : cp = ""
    · subst hcp; rfl
    · simp [resolvePalettePath, hcp, h]
  · intro h hs
    have hcp : cp ≠ "" := fun he => h (by rw [he]; rfl)
    simp [resolvePalettePath, hcp, h, hs]
  · intro h hs
    have hcp : cp ≠ "" := fun he => h (by rw [he]; rfl)
    simp [resolvePalettePath, hcp, h, hs]

/-- Witness for C10 (amended) on a `~/`-prefixed custom path. -/
theorem C10_resolve_path_witness :
    resolvePalettePath (some "~/x") "/h" none = "/h/x" := by
  have h := (C10_resolve_path "~/x" "/h" none).2.2.2 (by decide) (by decide)
  rw [h]
  rfl

end MatugenBridge
